import Mathlib

/-!
Verification of the miscio library: a shallow embedding of its two buffering
primitives and proofs of the specified properties.

The embedding models:
* `RollingLineBuffer` (rolling_line_buffer.go, delimiter variant): `RState`,
  `rlbWrite`, `rlbRead`, with `bytes.Split` modelled by `splitSeq`,
  `bytes.LastIndex` by `lastOcc`, and `ErrShortBuffer` (errors file) as a
  structure carrying the minimum size.
* `WriterAtReadCloser` (writerat_readcloser.go): `WState`, `wWriteAt`, `wRead`,
  `wClose`, with the `rangeSet` map modelled as a list of covered offsets
  (`addRange`, `nextCap`, `consume`).

Bytes are natural numbers; Go `int`/`int64` are `Nat`/`Int` (offsets never
approach 2^63 so wraparound is not modelled).  Operations that would panic in
Go (negative slice index, slicing past the length) return `none`; buffer
capacity (as opposed to length) is a performance artifact with no effect on
values and is not modelled.
-/

/-- Covered-offset list standing for the Go map keyset of rangeSet.m
(values are always true, so the map is a set). -/
abbrev RangeSet := List ℤ

/-- Loop body of rangeSet.Add: mark offsets a, a+1, ... (count many). -/
def addRangeGo (rs : RangeSet) (a : ℤ) : ℕ → RangeSet
  | 0 => rs
  | n + 1 =>
    let rs' := if a ∈ rs then rs else rs ++ [a]
    addRangeGo rs' (a + 1) n

/-- rangeSet.Add: marks all values in [a, b) as included. -/
def addRange (rs : RangeSet) (a b : ℤ) : RangeSet :=
  addRangeGo rs a (b - a).toNat

/-- Loop of rangeSet.NextCap, with fuel (the Go loop terminates because the
set is finite; fuel rs.length + 1 always suffices). -/
def nextCapGo : ℕ → ℤ → RangeSet → ℤ
  | 0, i, _ => i
  | f + 1, i, rs => if i ∈ rs then nextCapGo f (i + 1) rs else i

/-- rangeSet.NextCap: the highest N for which [0, N) is covered. -/
def nextCap (rs : RangeSet) : ℤ :=
  nextCapGo (rs.length + 1) 0 rs

/-- rangeSet.Consume: drop the first n values and shift the rest down by n. -/
def consume (rs : RangeSet) (n : ℤ) : RangeSet :=
  (rs.filter (fun k => n ≤ k)).map (fun k => k - n)

/-- State of a WriterAtReadCloser. -/
structure WState where
  buf : List ℕ
  bytesAvail : RangeSet
  bytesRead : ℤ
  readClosed : Bool
deriving DecidableEq

/-- Errors surfaced by the WriterAtReadCloser operations
(os.ErrClosed and io.EOF). -/
inductive WErr
  | closed
  | eof
deriving DecidableEq

/-- Result of a WriterAtReadCloser operation: bytes delivered (Read only),
the returned count, and the returned error if any. -/
structure WOut where
  bytes : List ℕ
  n : ℕ
  err : Option WErr
deriving DecidableEq

/-- NewWriterAtReadCloser: buffer preallocated to n zero bytes. -/
def initW (n : ℕ) : WState :=
  ⟨List.replicate n 0, [], 0, false⟩

/-- Overwrite buf starting at index i with the bytes of p
(models copy(buf[i:], p) when i + len(p) fits in buf). -/
def writeBytes (buf : List ℕ) (i : ℕ) (p : List ℕ) : List ℕ :=
  buf.take i ++ p ++ buf.drop (i + p.length)

/-- WriterAtReadCloser.WriteAt.  Returns none exactly where the Go code
would panic: an offset strictly behind the consumed origin makes
adjustedOffset negative, and buf[adjustedOffset:] panics. -/
def wWriteAt (s : WState) (p : List ℕ) (off : ℤ) : Option (WState × WOut) :=
  if s.readClosed then some (s, ⟨[], 0, some WErr.closed⟩)
  else
    let adjusted := off - s.bytesRead
    if adjusted < 0 then none
    else
      let adjN := adjusted.toNat
      let expLen := adjN + p.length
      let buf1 := if s.buf.length < expLen then
          s.buf ++ List.replicate (expLen - s.buf.length) 0
        else s.buf
      some ({ s with
                buf := writeBytes buf1 adjN p,
                bytesAvail := addRange s.bytesAvail adjusted (adjusted + p.length) },
            ⟨[], p.length, none⟩)

/-- WriterAtReadCloser.Read with a destination of length destLen.  Returns
none exactly where the Go code would panic (buf[:readable] out of range). -/
def wRead (s : WState) (destLen : ℕ) : Option (WState × WOut) :=
  if s.readClosed then some (s, ⟨[], 0, some WErr.eof⟩)
  else
    let readable0 := nextCap s.bytesAvail
    let readable := if (destLen : ℤ) ≤ readable0 then (destLen : ℤ) else readable0
    if 0 ≤ readable ∧ readable ≤ (s.buf.length : ℤ) then
      some ({ s with
                bytesAvail := consume s.bytesAvail readable,
                bytesRead := s.bytesRead + readable,
                buf := s.buf.drop readable.toNat },
            ⟨s.buf.take readable.toNat, readable.toNat, none⟩)
    else none

/-- WriterAtReadCloser.Close: marks the stream closed, returns nil error. -/
def wClose (s : WState) : WState × Option WErr :=
  ({ s with readClosed := true }, none)

/-- Operations of the positional write stream, for traces. -/
inductive WOp
  | writeAt (p : List ℕ) (off : ℤ)
  | read (destLen : ℕ)
  | close
deriving DecidableEq

/-- One step of the positional write stream. -/
def wStep (s : WState) : WOp → Option (WState × WOut)
  | WOp.writeAt p off => wWriteAt s p off
  | WOp.read d => wRead s d
  | WOp.close => some ((wClose s).1, ⟨[], 0, (wClose s).2⟩)

/-- Run a trace of operations, stopping (none) at a panic. -/
def wRun : WState → List WOp → Option WState
  | s, [] => some s
  | s, op :: t =>
    match wStep s op with
    | none => none
    | some (s', _) => wRun s' t

/-- Run a trace collecting each operation's output. -/
def wRunOuts : WState → List WOp → Option (WState × List WOut)
  | s, [] => some (s, [])
  | s, op :: t =>
    match wStep s op with
    | none => none
    | some (s', o) =>
      match wRunOuts s' t with
      | none => none
      | some (sf, os) => some (sf, o :: os)

/-- Documented caller precondition: WriteAt offsets are never strictly
behind the already-consumed origin. -/
def preOp (s : WState) : WOp → Prop
  | WOp.writeAt _ off => s.bytesRead ≤ off
  | _ => True

/-- Invariant of the write stream: every covered offset indexes into buf. -/
def WInv (s : WState) : Prop :=
  ∀ k ∈ s.bytesAvail, k < (s.buf.length : ℤ)

/-! ### RollingLineBuffer embedding -/

/-- State of a RollingLineBuffer (delimiter variant). -/
structure RState where
  curLine : List ℕ
  buf : List (List ℕ)
  capacity : ℕ
  readpos : ℕ
  lossyReads : Bool
  delim : List ℕ
deriving DecidableEq

/-- ErrShortBuffer: the typed error carrying the minimum destination size
needed for a Read to succeed (SizeNeeded). -/
structure ErrShortBuffer where
  minimumSize : ℕ
deriving DecidableEq

/-- NewRollingLineBufferWithDelimiter. -/
def initR (capacity : ℕ) (delim : List ℕ) : RState :=
  ⟨[], [], capacity, 0, false, delim⟩

/-- NewRollingLineBuffer: default delimiter is a single newline byte. -/
def initRLB (capacity : ℕ) : RState :=
  initR capacity [10]

/-- Does sep occur at the head of l (bytes.HasPrefix)? -/
def leadsWith (sep l : List ℕ) : Bool :=
  l.take sep.length == sep

/-- bytes.Index: index of the first occurrence of sep in l, none if absent. -/
def firstOcc (sep : List ℕ) : List ℕ → Option ℕ
  | [] => if leadsWith sep [] then some 0 else none
  | x :: xs =>
    if leadsWith sep (x :: xs) then some 0
    else (firstOcc sep xs).map (· + 1)

/-- bytes.LastIndex: index of the last occurrence of sep in l, none if absent. -/
def lastOcc (sep : List ℕ) : List ℕ → Option ℕ
  | [] => if leadsWith sep [] then some 0 else none
  | x :: xs =>
    match lastOcc sep xs with
    | some i => some (i + 1)
    | none => if leadsWith sep (x :: xs) then some 0 else none

/-- bytes.LastIndex with Go's -1-for-absent convention. -/
def goLastIdx (sep l : List ℕ) : ℤ :=
  match lastOcc sep l with
  | none => -1
  | some i => (i : ℤ)

/-- bytes.Split, with fuel (each round removes at least one byte when the
separator is nonempty, so fuel l.length + 1 always suffices; the empty
separator, which Go treats as splitting between UTF-8 runes, is outside
the model and never used by the library's claims). -/
def splitSeq (sep : List ℕ) : ℕ → List ℕ → List (List ℕ)
  | 0, l => [l]
  | fuel + 1, l =>
    match firstOcc sep l with
    | none => [l]
    | some i => l.take i :: splitSeq sep fuel (l.drop (i + sep.length))

/-- Last element of a list of records (Go lines[len(lines)-1]); [] on empty. -/
def lastSegOf : List (List ℕ) → List ℕ
  | [] => []
  | [x] => x
  | _ :: x :: xs => lastSegOf (x :: xs)

/-- Capacity trimming at the end of RollingLineBuffer.Write: drop the oldest
records beyond capacity, shift the read cursor, set the lossy flag if the
cursor would go negative. -/
def trimBuf (s : RState) : RState :=
  if s.capacity < s.buf.length then
    let shift := s.buf.length - s.capacity
    { s with
        buf := s.buf.drop shift,
        readpos := s.readpos - shift,
        lossyReads := if s.readpos < shift then true else s.lossyReads }
  else s

/-- Body of RollingLineBuffer.Write after the Split/LastIndex calls:
lines0 is bytes.Split(data, delim), flush says whether the data ends at a
delimiter boundary (lastIdx == len(data)-len(delim)). -/
def rlbWriteGo (s : RState) (lines0 : List (List ℕ)) (flush : Bool)
    (dataLen : ℕ) : RState × ℕ :=
  match (if flush then lines0.dropLast else lines0) with
  | [] => (s, 0)
  | l0 :: rest =>
    match (if flush = false ∧ rest = [] then
             (s.curLine ++ l0, ([] : List (List ℕ)), s.buf)
           else if s.curLine ≠ [] then
             (([] : List ℕ), rest, s.buf ++ [s.curLine ++ l0])
           else
             (s.curLine, l0 :: rest, s.buf)) with
    | (cur1, lines1, buf1) =>
      match (match lines1 with
             | [] => (cur1, buf1)
             | _ :: _ =>
               if flush then (cur1, buf1 ++ lines1)
               else (lastSegOf lines1, buf1 ++ lines1.dropLast)) with
      | (cur2, buf2) =>
        (trimBuf { s with curLine := cur2, buf := buf2 }, dataLen)

/-- RollingLineBuffer.Write. -/
def rlbWrite (s : RState) (data : List ℕ) : RState × ℕ :=
  rlbWriteGo s (splitSeq s.delim (data.length + 1) data)
    (decide (goLastIdx s.delim data = (data.length : ℤ) - (s.delim.length : ℤ)))
    data.length

/-- Loop of RollingLineBuffer.Read: copy whole records (each followed by a
freshly appended delimiter) while they fit in destLen; returns the copied
bytes and the number of records consumed. -/
def collectRecords (delim : List ℕ) (destLen : ℕ) : List (List ℕ) → ℕ → List ℕ × ℕ
  | [], _ => ([], 0)
  | r :: rs, readAcc =>
    if destLen < readAcc + (r.length + delim.length) then ([], 0)
    else
      match collectRecords delim destLen rs (readAcc + (r.length + delim.length)) with
      | (tmp, k) => (r ++ delim ++ tmp, k + 1)

/-- RollingLineBuffer.Read with a destination of length destLen: returns the
new state, the bytes copied out, and the error if any. -/
def rlbRead (s : RState) (destLen : ℕ) : RState × List ℕ × Option ErrShortBuffer :=
  if s.buf.length = 0 ∨ s.buf.length ≤ s.readpos then (s, [], none)
  else
    if destLen < (s.buf.getD s.readpos []).length + s.delim.length then
      (s, [], some ⟨(s.buf.getD s.readpos []).length + s.delim.length⟩)
    else
      match collectRecords s.delim destLen (s.buf.drop s.readpos) 0 with
      | (tmp, k) =>
        ({ s with readpos := s.readpos + k, lossyReads := false }, tmp, none)

/-! ### Specification-side record splitting (single-byte delimiter)

`splitByte c l` is the list of segments of `l` around the byte `c`; the
last segment is the pending partial, the earlier ones are the completed
records.  It is proved equal to the Go `bytes.Split` model below and is the
vehicle for the rolling-buffer correctness statements. -/

/-- Split on a single byte; never empty, delimiters not included. -/
def splitByte (c : ℕ) : List ℕ → List (List ℕ)
  | [] => [[]]
  | x :: xs =>
    if x = c then [] :: splitByte c xs
    else
      match splitByte c xs with
      | [] => [[x]]
      | s :: ss => (x :: s) :: ss

/-- Completed records of a byte stream (all segments but the last). -/
def recsOf (c : ℕ) (l : List ℕ) : List (List ℕ) :=
  (splitByte c l).dropLast

/-- Pending partial of a byte stream (the last segment). -/
def lastSeg (c : ℕ) (l : List ℕ) : List ℕ :=
  lastSegOf (splitByte c l)

/-- Merge a prefix into the head segment of a split. -/
def joinHead (p : List ℕ) : List (List ℕ) → List (List ℕ)
  | [] => [p]
  | h :: t => (p ++ h) :: t

/-- Last C elements of a list, in order. -/
def lastN (C : ℕ) (l : List α) : List α :=
  l.drop (l.length - C)

/-- Invariant of the rolling buffer for capacity C and single-byte
delimiter c: record count at most C, cursor within [0, count], pending
partial free of the delimiter. -/
def RInv (C c : ℕ) (s : RState) : Prop :=
  s.capacity = C ∧ s.delim = [c] ∧ s.buf.length ≤ C ∧
    s.readpos ≤ s.buf.length ∧ c ∉ s.curLine

/-! ### Basic lemmas and first theorems -/

theorem drop_eq_getD_cons {α : Type} (d : α) :
    ∀ (l : List α) (p : ℕ), p < l.length → l.drop p = l.getD p d :: l.drop (p + 1)
  | _ :: _, 0, _ => rfl
  | x :: xs, p + 1, h => by
    simpa [List.getD] using drop_eq_getD_cons d xs p (by simpa using h)

/-- Successful branch of rlbRead: when an unread record exists and fits,
the loop copies records and clears the lossy flag. -/
theorem rlbRead_success (s : RState) (destLen : ℕ)
    (h1 : ¬(s.buf.length = 0 ∨ s.buf.length ≤ s.readpos))
    (h2 : ¬(destLen < (s.buf.getD s.readpos []).length + s.delim.length)) :
    rlbRead s destLen =
      ({ s with
           readpos := s.readpos + (collectRecords s.delim destLen (s.buf.drop s.readpos) 0).2,
           lossyReads := false },
        (collectRecords s.delim destLen (s.buf.drop s.readpos) 0).1, none) := by
  unfold rlbRead
  rw [if_neg h1, if_neg h2]

/-- C1 (counterexample to the claim as stated): on a fresh stream, after
WriteAt of one byte at offset 0 and then Close, the first Read returns
zero bytes with end-of-stream even though one covered byte (contiguous
prefix of length 1) was never drained. -/
theorem read_after_close_drops_undrained_counterexample :
    wWriteAt (initW 0) [97] 0 = some (⟨[97], [0], 0, false⟩, ⟨[], 1, none⟩) ∧
    nextCap ((wClose ⟨[97], [0], 0, false⟩).1).bytesAvail = 1 ∧
    wRead ((wClose ⟨[97], [0], 0, false⟩).1) 5 =
      some ((wClose ⟨[97], [0], 0, false⟩).1, ⟨[], 0, some WErr.eof⟩) := by
  decide

/-- C1 (amended): after Close, Read immediately reports end-of-stream with
zero bytes, regardless of covered undrained bytes, leaving the state
unchanged; hence every further read keeps reporting end-of-stream. -/
theorem read_after_close_immediate_eof (s : WState) (destLen : ℕ)
    (h : s.readClosed = true) :
    wRead s destLen = some (s, ⟨[], 0, some WErr.eof⟩) := by
  simp [wRead, h]

theorem read_after_close_immediate_eof_witness :
    wRead ((wClose (initW 0)).1) 5 = some ((wClose (initW 0)).1, ⟨[], 0, some WErr.eof⟩) :=
  read_after_close_immediate_eof ((wClose (initW 0)).1) 5 rfl

/-- C5: Close is idempotent and error-free, marks the stream closed, and on
any closed state WriteAt accepts zero bytes, fails with the Closed error,
and leaves the state (buffer and coverage set) unchanged. -/
theorem close_idempotent_writeAt_fails_closed (s s2 : WState) (p : List ℕ) (off : ℤ)
    (h : s2.readClosed = true) :
    (wClose (wClose s).1).1 = (wClose s).1 ∧ (wClose s).2 = none ∧
    ((wClose s).1).readClosed = true ∧
    wWriteAt s2 p off = some (s2, ⟨[], 0, some WErr.closed⟩) := by
  refine ⟨rfl, rfl, rfl, ?_⟩
  simp [wWriteAt, h]

theorem close_idempotent_writeAt_fails_closed_witness :
    (wClose (wClose (initW 0)).1).1 = (wClose (initW 0)).1 ∧
    (wClose (initW 0)).2 = none ∧
    ((wClose (initW 0)).1).readClosed = true ∧
    wWriteAt ((wClose (initW 0)).1) [1] 0 =
      some ((wClose (initW 0)).1, ⟨[], 0, some WErr.closed⟩) :=
  close_idempotent_writeAt_fails_closed (initW 0) ((wClose (initW 0)).1) [1] 0 rfl

/-- C7: on a fresh stream, WriteAt of the bytes of "world" at offset 6
accepts 5 bytes; a Read with an ample destination then yields 0 bytes and
no error (offset 0 is a gap); after WriteAt of the bytes of "hello " at
offset 0, a Read delivers exactly the bytes of "hello world". -/
theorem gap_then_fill_reads_hello_world :
    (wRunOuts (initW 0)
        [WOp.writeAt [119, 111, 114, 108, 100] 6, WOp.read 100,
         WOp.writeAt [104, 101, 108, 108, 111, 32] 0, WOp.read 100]).map (fun r => r.2) =
      some [⟨[], 5, none⟩, ⟨[], 0, none⟩, ⟨[], 6, none⟩,
            ⟨[104, 101, 108, 108, 111, 32, 119, 111, 114, 108, 100], 11, none⟩] := by
  decide

/-- C4: with at least one unread record whose length plus the delimiter
length exceeds the destination length, Read returns no bytes and a
ShortBuffer error carrying record length + delimiter length, and the whole
state is returned unchanged. -/
theorem short_destination_error_state_unchanged (s : RState) (destLen : ℕ)
    (h1 : s.readpos < s.buf.length)
    (h2 : destLen < (s.buf.getD s.readpos []).length + s.delim.length) :
    rlbRead s destLen =
      (s, [], some ⟨(s.buf.getD s.readpos []).length + s.delim.length⟩) := by
  unfold rlbRead
  rw [if_neg (by omega), if_pos h2]

theorem short_destination_error_state_unchanged_witness :
    rlbRead ⟨[], [[0, 1, 2, 3, 4, 5, 6, 7, 8, 9]], 1, 0, false, [10]⟩ 8 =
      (⟨[], [[0, 1, 2, 3, 4, 5, 6, 7, 8, 9]], 1, 0, false, [10]⟩, [], some ⟨11⟩) :=
  short_destination_error_state_unchanged
    ⟨[], [[0, 1, 2, 3, 4, 5, 6, 7, 8, 9]], 1, 0, false, [10]⟩ 8 (by decide) (by decide)

/-- C10: a Read that finds no unread record returns zero bytes and no error
and leaves the whole state (including the lossy flag) unchanged; and the
lossy flag is cleared only by a Read that actually consumes at least one
record (never by an empty read or by a failed short-destination read). -/
theorem empty_read_noop_lossy_cleared_only_on_progress (s : RState) (destLen : ℕ) :
    ((s.buf.length = 0 ∨ s.buf.length ≤ s.readpos) → rlbRead s destLen = (s, [], none)) ∧
    (s.lossyReads = true → (rlbRead s destLen).1.lossyReads = false →
      s.readpos < (rlbRead s destLen).1.readpos) := by
  constructor
  · intro h
    unfold rlbRead
    rw [if_pos h]
  · intro hl hc
    by_cases hg : s.buf.length = 0 ∨ s.buf.length ≤ s.readpos
    · exfalso
      unfold rlbRead at hc
      rw [if_pos hg] at hc
      rw [hl] at hc
      simp at hc
    · by_cases hshort : destLen < (s.buf.getD s.readpos []).length + s.delim.length
      · exfalso
        unfold rlbRead at hc
        rw [if_neg hg, if_pos hshort] at hc
        rw [hl] at hc
        simp at hc
      · rw [rlbRead_success s destLen hg hshort]
        have hlt : s.readpos < s.buf.length := by
          push_neg at hg
          exact hg.2
        have hdrop := drop_eq_getD_cons ([] : List ℕ) s.buf s.readpos hlt
        have hk : 1 ≤ (collectRecords s.delim destLen (s.buf.drop s.readpos) 0).2 := by
          rw [hdrop]
          unfold collectRecords
          rw [if_neg (by omega)]
          simp only []
          omega
        simp only []
        omega

/-- C3 (exhibiting the defect): with the two-byte delimiter [97, 98]
("ab"), writing the single undelimited byte [120] ("x") is silently
discarded — the call returns with the state unchanged and the pending
partial still empty, although the data contained no delimiter. -/
theorem multibyte_delim_short_write_discards_data :
    rlbWrite (initR 5 [97, 98]) [120] = (initR 5 [97, 98], 0) ∧
    (rlbWrite (initR 5 [97, 98]) [120]).1.curLine = [] := by
  decide

/-- C8 (counterexample to the claim as stated): with the two-byte delimiter
[97, 98] ("ab"), writing [120, 97] ("xa") and then [98, 121] ("by") leaves
the pending partial equal to [120, 97, 98, 121] ("xaby"), which contains an
occurrence of the delimiter at index 1 — the claimed invariant fails for
multi-byte delimiters split across writes. -/
theorem multibyte_delim_partial_contains_delim_counterexample :
    (rlbWrite (rlbWrite (initR 2 [97, 98]) [120, 97]).1 [98, 121]).1.curLine =
      [120, 97, 98, 121] ∧
    firstOcc [97, 98]
        (rlbWrite (rlbWrite (initR 2 [97, 98]) [120, 97]).1 [98, 121]).1.curLine =
      some 1 := by
  decide

/-! ### Lemmas about single-byte splitting -/

theorem splitByte_ne_nil (c : ℕ) : ∀ l, splitByte c l ≠ []
  | [] => by simp [splitByte]
  | x :: xs => by
    unfold splitByte
    by_cases h : x = c
    · simp [h]
    · rw [if_neg h]
      rcases hsx : splitByte c xs with _ | ⟨s, ss⟩ <;> simp

theorem leadsWith_single (c x : ℕ) (xs : List ℕ) :
    leadsWith [c] (x :: xs) = true ↔ x = c := by
  simp [leadsWith]

theorem leadsWith_single_nil (c : ℕ) : leadsWith [c] [] = false := by
  simp [leadsWith]

theorem firstOcc_eq_none_iff (c : ℕ) : ∀ l, firstOcc [c] l = none ↔ c ∉ l
  | [] => by simp [firstOcc, leadsWith]
  | x :: xs => by
    unfold firstOcc
    by_cases h : x = c
    · subst h
      simp [leadsWith]
    · have hxc : ¬c = x := fun hcx => h hcx.symm
      simp [leadsWith, h, hxc, firstOcc_eq_none_iff c xs]

theorem splitByte_cons_eq (c x : ℕ) (xs : List ℕ) :
    splitByte c (x :: xs) =
      if x = c then [] :: splitByte c xs
      else
        match splitByte c xs with
        | [] => [[x]]
        | s :: ss => (x :: s) :: ss := rfl

theorem splitByte_eq_single_of_not_mem (c : ℕ) : ∀ l, c ∉ l → splitByte c l = [l]
  | [], _ => by simp [splitByte]
  | x :: xs, h => by
    rw [splitByte_cons_eq,
      if_neg (fun hx => h (by rw [hx]; exact List.mem_cons_self c xs)),
      splitByte_eq_single_of_not_mem c xs (fun hm => h (List.mem_cons_of_mem x hm))]

theorem splitByte_of_firstOcc (c : ℕ) : ∀ l i, firstOcc [c] l = some i →
    splitByte c l = l.take i :: splitByte c (l.drop (i + 1))
  | [], i, h => by simp [firstOcc, leadsWith] at h
  | x :: xs, i, h => by
    unfold firstOcc at h
    by_cases hx : x = c
    · rw [if_pos (by simpa [leadsWith_single] using hx)] at h
      injection h with h0
      subst h0
      show splitByte c (x :: xs) = [] :: splitByte c xs
      rw [splitByte_cons_eq, if_pos hx]
    · rw [if_neg (by simpa [leadsWith_single] using hx)] at h
      rcases Option.map_eq_some'.mp h with ⟨j, hj, rfl⟩
      show splitByte c (x :: xs) = (x :: xs.take j) :: splitByte c (xs.drop (j + 1))
      rw [splitByte_cons_eq, if_neg hx, splitByte_of_firstOcc c xs j hj]

theorem splitSeq_single (c : ℕ) : ∀ (f : ℕ) (l : List ℕ), l.length < f →
    splitSeq [c] f l = splitByte c l
  | 0, l, h => absurd h (by omega)
  | f + 1, l, h => by
    unfold splitSeq
    rcases ho : firstOcc [c] l with _ | i
    · show [l] = splitByte c l
      rw [splitByte_eq_single_of_not_mem c l ((firstOcc_eq_none_iff c l).mp ho)]
    · show l.take i :: splitSeq [c] f (l.drop (i + 1)) = splitByte c l
      rw [splitByte_of_firstOcc c l i ho]
      have hl : l ≠ [] := by
        intro hnil
        rw [hnil] at ho
        simp [firstOcc, leadsWith] at ho
      have hlen : (l.drop (i + 1)).length = l.length - (i + 1) := List.length_drop _ _
      have hflt : (l.drop (i + 1)).length < f := by
        have : 0 < l.length := List.length_pos.mpr hl
        omega
      rw [splitSeq_single c f (l.drop (i + 1)) hflt]


theorem splitByte_eq_nil_single (c : ℕ) : ∀ l, splitByte c l = [[]] → l = []
  | [], _ => rfl
  | x :: xs, h => by
    exfalso
    unfold splitByte at h
    by_cases hx : x = c
    · rw [if_pos hx] at h
      injection h with h1 h2
      exact splitByte_ne_nil c xs h2
    · rw [if_neg hx] at h
      rcases hs : splitByte c xs with _ | ⟨s, ss⟩
      · exact splitByte_ne_nil c xs hs
      · rw [hs] at h
        injection h with h1 h2
        simp at h1

theorem lastSegOf_cons_of_ne_nil (h : List ℕ) (t : List (List ℕ)) (ht : t ≠ []) :
    lastSegOf (h :: t) = lastSegOf t := by
  cases t with
  | nil => exact absurd rfl ht
  | cons a b => rfl

theorem not_mem_lastSeg (c : ℕ) : ∀ l, c ∉ lastSegOf (splitByte c l)
  | [] => by simp [splitByte, lastSegOf]
  | x :: xs => by
    unfold splitByte
    by_cases hx : x = c
    · rw [if_pos hx, lastSegOf_cons_of_ne_nil _ _ (splitByte_ne_nil c xs)]
      exact not_mem_lastSeg c xs
    · rw [if_neg hx]
      rcases hs : splitByte c xs with _ | ⟨s, ss⟩
      · exact absurd hs (splitByte_ne_nil c xs)
      · have hIH := not_mem_lastSeg c xs
        rw [hs] at hIH
        rcases ss with _ | ⟨s2, ss2⟩
        · simp only [lastSegOf] at hIH ⊢
          intro hmem
          rcases List.mem_cons.mp hmem with hcx | hcs
          · exact hx hcx.symm
          · exact hIH hcs
        · rw [lastSegOf_cons_of_ne_nil _ _ (by simp)]
          rw [lastSegOf_cons_of_ne_nil _ _ (by simp)] at hIH
          exact hIH

theorem splitByte_append_of_not_mem (c : ℕ) : ∀ (p b : List ℕ), c ∉ p →
    splitByte c (p ++ b) = joinHead p (splitByte c b)
  | [], b, _ => by
    rcases hs : splitByte c b with _ | ⟨h, t⟩
    · exact absurd hs (splitByte_ne_nil c b)
    · show splitByte c b = joinHead [] (h :: t)
      rw [hs]
      simp [joinHead]
  | x :: p', b, hp => by
    have hx : ¬x = c := fun hxc => hp (by rw [hxc]; exact List.mem_cons_self c p')
    show splitByte c (x :: (p' ++ b)) = _
    rw [splitByte_cons_eq, if_neg hx,
      splitByte_append_of_not_mem c p' b (fun hm => hp (List.mem_cons_of_mem x hm))]
    rcases hs : splitByte c b with _ | ⟨h, t⟩
    · exact absurd hs (splitByte_ne_nil c b)
    · simp [joinHead]

theorem lastOcc_eq_none_iff (c : ℕ) : ∀ l, lastOcc [c] l = none ↔ c ∉ l
  | [] => by simp [lastOcc, leadsWith]
  | x :: xs => by
    unfold lastOcc
    rcases hlo : lastOcc [c] xs with _ | i
    · have hnx : c ∉ xs := (lastOcc_eq_none_iff c xs).mp hlo
      by_cases hx : x = c
      · simp [leadsWith_single, hx]
      · have hcx : ¬c = x := fun h => hx h.symm
        simp [leadsWith, hx, hcx, hnx]
    · have hmem : c ∈ xs := by
        by_contra hc
        rw [(lastOcc_eq_none_iff c xs).mpr hc] at hlo
        cases hlo
      simp [hmem]

theorem lastSeg_eq_nil_iff (c : ℕ) : ∀ d, lastSegOf (splitByte c d) = [] ↔
    (d = [] ∨ d.getLast? = some c)
  | [] => by simp [splitByte, lastSegOf]
  | x :: xs => by
    rw [splitByte_cons_eq]
    by_cases hx : x = c
    · rw [if_pos hx, lastSegOf_cons_of_ne_nil _ _ (splitByte_ne_nil c xs),
        lastSeg_eq_nil_iff c xs]
      subst hx
      constructor
      · rintro (rfl | h)
        · exact Or.inr rfl
        · refine Or.inr ?_
          cases xs with
          | nil => simp at h
          | cons a b => rw [List.getLast?_cons_cons]; exact h
      · rintro (h | h)
        · cases h
        · cases xs with
          | nil => exact Or.inl rfl
          | cons a b => rw [List.getLast?_cons_cons] at h; exact Or.inr h
    · rw [if_neg hx]
      rcases hs : splitByte c xs with _ | ⟨s, ss⟩
      · exact absurd hs (splitByte_ne_nil c xs)
      · have hIH := lastSeg_eq_nil_iff c xs
        rw [hs] at hIH
        rcases ss with _ | ⟨s2, ss2⟩
        · show x :: s = [] ↔ _
          constructor
          · intro h
            simp at h
          · rintro (h | h)
            · simp at h
            · exfalso
              cases xs with
              | nil =>
                simp at h
                exact hx h
              | cons a b =>
                have hsn : s = [] := by
                  rw [show lastSegOf [s] = s from rfl] at hIH
                  exact hIH.mpr (Or.inr h)
                rw [hsn] at hs
                exact List.cons_ne_nil a b (splitByte_eq_nil_single c _ hs)
        · rw [lastSegOf_cons_of_ne_nil _ _ (by simp)]
          rw [lastSegOf_cons_of_ne_nil _ _ (by simp)] at hIH
          rw [hIH]
          cases xs with
          | nil => simp [splitByte] at hs
          | cons a b =>
            rw [List.getLast?_cons_cons]
            simp

theorem goLastIdx_single_iff (c : ℕ) : ∀ d : List ℕ,
    goLastIdx [c] d = (d.length : ℤ) - 1 ↔ (d = [] ∨ d.getLast? = some c)
  | [] => by simp [goLastIdx, lastOcc, leadsWith]
  | x :: xs => by
    unfold goLastIdx lastOcc
    rcases hlo : lastOcc [c] xs with _ | i
    · have hnx : c ∉ xs := (lastOcc_eq_none_iff c xs).mp hlo
      by_cases hx : x = c
      · rw [if_pos (by simpa [leadsWith_single] using hx)]
        show (0 : ℤ) = (xs.length + 1 : ℕ) - 1 ↔ _
        cases xs with
        | nil => simp [hx]
        | cons a b =>
          constructor
          · intro h
            exfalso
            rw [List.length_cons] at h
            push_cast at h
            omega
          · rintro (h | h)
            · cases h
            · exfalso
              rw [List.getLast?_cons_cons] at h
              exact hnx (List.mem_of_mem_getLast? (by rw [h]; rfl))
      · rw [if_neg (by simpa [leadsWith_single] using hx)]
        show (-1 : ℤ) = (xs.length + 1 : ℕ) - 1 ↔ _
        constructor
        · intro h
          exfalso
          omega
        · rintro (h | h)
          · cases h
          · exfalso
            cases xs with
            | nil =>
              simp at h
              exact hx h
            | cons a b =>
              rw [List.getLast?_cons_cons] at h
              exact hnx (List.mem_of_mem_getLast? (by rw [h]; rfl))
    · have hmem : c ∈ xs := by
        by_contra hc
        rw [(lastOcc_eq_none_iff c xs).mpr hc] at hlo
        cases hlo
      have hxs : xs ≠ [] := fun h => by rw [h] at hmem; cases hmem
      have hIH := goLastIdx_single_iff c xs
      rw [show goLastIdx [c] xs = (i : ℤ) by rw [goLastIdx, hlo]] at hIH
      show ((i : ℕ) + 1 : ℤ) = (xs.length + 1 : ℕ) - 1 ↔ _
      cases xs with
      | nil => exact absurd rfl hxs
      | cons a b =>
        rw [List.getLast?_cons_cons]
        constructor
        · intro h
          refine Or.inr ?_
          rcases hIH.mp (by push_cast at h ⊢; omega) with h2 | h2
          · cases h2
          · exact h2
        · rintro (h | h)
          · cases h
          · have := hIH.mpr (Or.inr h)
            push_cast at this ⊢
            omega

theorem splitByte_append (c : ℕ) : ∀ (a b : List ℕ),
    splitByte c (a ++ b) =
      (splitByte c a).dropLast ++ joinHead (lastSegOf (splitByte c a)) (splitByte c b)
  | [], b => by
    rcases hs : splitByte c b with _ | ⟨h, t⟩
    · exact absurd hs (splitByte_ne_nil c b)
    · show splitByte c b = (splitByte c ([] : List ℕ)).dropLast ++
        joinHead (lastSegOf (splitByte c ([] : List ℕ))) (h :: t)
      rw [hs]
      simp [splitByte, lastSegOf, joinHead]
  | x :: a', b => by
    have IH := splitByte_append c a' b
    show splitByte c (x :: (a' ++ b)) = _
    by_cases hx : x = c
    · rw [splitByte_cons_eq _ x (a' ++ b), if_pos hx, IH]
      rw [show splitByte c (x :: a') = [] :: splitByte c a' by
        rw [splitByte_cons_eq, if_pos hx]]
      rcases hsa : splitByte c a' with _ | ⟨s, ss⟩
      · exact absurd hsa (splitByte_ne_nil c a')
      · rw [show (([] : List ℕ) :: s :: ss).dropLast = [] :: (s :: ss).dropLast from rfl,
          lastSegOf_cons_of_ne_nil ([] : List ℕ) (s :: ss) (by simp)]
        simp
    · rw [splitByte_cons_eq _ x (a' ++ b), if_neg hx, IH]
      rw [show splitByte c (x :: a') =
          (match splitByte c a' with
           | [] => [[x]]
           | s :: ss => (x :: s) :: ss) by
        rw [splitByte_cons_eq, if_neg hx]]
      rcases hsa : splitByte c a' with _ | ⟨s, ss⟩
      · exact absurd hsa (splitByte_ne_nil c a')
      · rcases ss with _ | ⟨s2, ss2⟩
        · rcases hsb : splitByte c b with _ | ⟨hb, tb⟩
          · exact absurd hsb (splitByte_ne_nil c b)
          · show (match ([] : List (List ℕ)) ++ joinHead (lastSegOf [s]) (hb :: tb) with
                  | [] => [[x]]
                  | s :: ss => (x :: s) :: ss) = _
            rw [show lastSegOf [s] = s from rfl]
            show (x :: (s ++ hb)) :: tb =
              ([(x :: s)] : List (List ℕ)).dropLast ++ joinHead (lastSegOf [x :: s]) (hb :: tb)
            rw [show lastSegOf [x :: s] = x :: s from rfl]
            simp [joinHead]
        · show (match ((s :: s2 :: ss2).dropLast ++
                  joinHead (lastSegOf (s :: s2 :: ss2)) (splitByte c b)) with
                | [] => [[x]]
                | s :: ss => (x :: s) :: ss) = _
          rw [show (s :: s2 :: ss2).dropLast = s :: (s2 :: ss2).dropLast from rfl,
            lastSegOf_cons_of_ne_nil s (s2 :: ss2) (by simp),
            show ((x :: s) :: s2 :: ss2).dropLast = (x :: s) :: (s2 :: ss2).dropLast from rfl,
            lastSegOf_cons_of_ne_nil (x :: s) (s2 :: ss2) (by simp)]
          rfl

theorem joinHead_ne_nil (p : List ℕ) (l : List (List ℕ)) : joinHead p l ≠ [] := by
  cases l <;> simp [joinHead]

theorem lastSegOf_append (xs : List (List ℕ)) (ys : List (List ℕ)) (hys : ys ≠ []) :
    lastSegOf (xs ++ ys) = lastSegOf ys := by
  induction xs with
  | nil => rfl
  | cons x xs' ih =>
    rcases hzz : xs' ++ ys with _ | ⟨z, zs⟩
    · exact absurd (List.append_eq_nil.mp hzz).2 hys
    · show lastSegOf (x :: (xs' ++ ys)) = lastSegOf ys
      rw [hzz, lastSegOf_cons_of_ne_nil x (z :: zs) (by simp), ← hzz, ih]

theorem rlbWriteGo_true_nil (s : RState) (lines0 : List (List ℕ)) (len : ℕ)
    (hL : lines0.dropLast = []) :
    rlbWriteGo s lines0 true len = (s, 0) := by
  unfold rlbWriteGo
  rw [if_pos rfl, hL]

theorem rlbWriteGo_true_cons (s : RState) (lines0 : List (List ℕ)) (l0 : List ℕ)
    (rest : List (List ℕ)) (len : ℕ) (hL : lines0.dropLast = l0 :: rest) :
    rlbWriteGo s lines0 true len =
      if s.curLine ≠ [] then
        (trimBuf { s with curLine := [],
                          buf := (s.buf ++ [s.curLine ++ l0]) ++ rest }, len)
      else
        (trimBuf { s with curLine := s.curLine,
                          buf := s.buf ++ (l0 :: rest) }, len) := by
  obtain ⟨cur, B, cap, rp, lossy, dl⟩ := s
  unfold rlbWriteGo
  rw [if_pos rfl, hL]
  cases cur with
  | nil => rcases rest with _ | ⟨r1, rs⟩ <;> first | rfl | simp
  | cons b0 bs => rcases rest with _ | ⟨r1, rs⟩ <;> first | rfl | simp

theorem rlbWriteGo_false_single (s : RState) (l0 : List ℕ) (len : ℕ) :
    rlbWriteGo s [l0] false len =
      (trimBuf { s with curLine := s.curLine ++ l0, buf := s.buf }, len) := by
  obtain ⟨cur, B, cap, rp, lossy, dl⟩ := s
  cases cur with
  | nil => rfl
  | cons b0 bs => rfl

theorem rlbWriteGo_false_cons (s : RState) (l0 r1 : List ℕ) (rs : List (List ℕ))
    (len : ℕ) :
    rlbWriteGo s (l0 :: r1 :: rs) false len =
      if s.curLine ≠ [] then
        (trimBuf { s with curLine := lastSegOf (r1 :: rs),
                          buf := (s.buf ++ [s.curLine ++ l0]) ++ (r1 :: rs).dropLast }, len)
      else
        (trimBuf { s with curLine := lastSegOf (l0 :: r1 :: rs),
                          buf := s.buf ++ (l0 :: r1 :: rs).dropLast }, len) := by
  obtain ⟨cur, B, cap, rp, lossy, dl⟩ := s
  cases cur with
  | nil => rfl
  | cons b0 bs => rfl

/-- Uniform description of RollingLineBuffer.Write for a single-byte
delimiter: the completed records of curLine ++ data are appended to the
store, the pending partial becomes the trailing segment, and the capacity
trim runs. -/
theorem rlbWrite_single_byte (c : ℕ) (s : RState) (d : List ℕ)
    (hdelim : s.delim = [c]) (hcur : c ∉ s.curLine) (hlen : s.buf.length ≤ s.capacity) :
    rlbWrite s d =
      (trimBuf { s with curLine := lastSeg c (s.curLine ++ d),
                        buf := s.buf ++ recsOf c (s.curLine ++ d) }, d.length) := by
  unfold rlbWrite
  rw [hdelim, splitSeq_single c (d.length + 1) d (by omega)]
  have hts : trimBuf s = s := by
    unfold trimBuf
    rw [if_neg (by omega)]
  by_cases hP : goLastIdx [c] d = (d.length : ℤ) - 1
  · have hPfull : goLastIdx [c] d = (d.length : ℤ) - (List.length ([c] : List ℕ) : ℤ) := by
      simpa using hP
    rw [decide_eq_true hPfull]
    rcases (goLastIdx_single_iff c d).mp hP with rfl | hend
    · rw [rlbWriteGo_true_nil s (splitByte c []) (List.length ([] : List ℕ)) rfl,
        List.append_nil]
      rw [show lastSeg c s.curLine = s.curLine from by
        unfold lastSeg
        rw [splitByte_eq_single_of_not_mem c _ hcur]
        rfl]
      rw [show recsOf c s.curLine = [] from by
        unfold recsOf
        rw [splitByte_eq_single_of_not_mem c _ hcur]
        rfl]
      rw [List.append_nil, ← hdelim]
      rw [show { s with curLine := s.curLine, buf := s.buf } = s from rfl, hts]
      rfl
    · have hdne : d ≠ [] := by
        intro h
        rw [h] at hend
        cases hend
      have hls : lastSegOf (splitByte c d) = [] := (lastSeg_eq_nil_iff c d).mpr (Or.inr hend)
      rcases hsd : splitByte c d with _ | ⟨h0, t⟩
      · exact absurd hsd (splitByte_ne_nil c d)
      rcases t with _ | ⟨t0, ts⟩
      · exfalso
        rw [hsd] at hls
        have hh0 : h0 = ([] : List ℕ) := hls
        rw [hh0] at hsd
        exact hdne (splitByte_eq_nil_single c d hsd)
      · rw [rlbWriteGo_true_cons s (h0 :: t0 :: ts) h0 ((t0 :: ts).dropLast) d.length rfl]
        have hjoin := splitByte_append_of_not_mem c s.curLine d hcur
        rw [hsd] at hjoin
        have hrecs : recsOf c (s.curLine ++ d) = (s.curLine ++ h0) :: (t0 :: ts).dropLast := by
          unfold recsOf
          rw [hjoin]
          rfl
        have hlast : lastSeg c (s.curLine ++ d) = [] := by
          unfold lastSeg
          rw [hjoin,
            show joinHead s.curLine (h0 :: t0 :: ts) = (s.curLine ++ h0) :: t0 :: ts from rfl,
            lastSegOf_cons_of_ne_nil _ _ (by simp)]
          rw [hsd, lastSegOf_cons_of_ne_nil _ _ (by simp)] at hls
          exact hls
        rw [hrecs, hlast]
        by_cases hp : s.curLine = []
        · rw [if_neg (by simp [hp]), hp]
          simp [hdelim]
        · rw [if_pos hp]
          simp [hdelim, List.append_assoc]
  · have hPfull : ¬goLastIdx [c] d = (d.length : ℤ) - (List.length ([c] : List ℕ) : ℤ) := by
      simpa using hP
    rw [decide_eq_false hPfull]
    have hnor : ¬(d = [] ∨ d.getLast? = some c) := fun h => hP ((goLastIdx_single_iff c d).mpr h)
    push_neg at hnor
    have hlsne : lastSegOf (splitByte c d) ≠ [] := by
      intro h
      rcases (lastSeg_eq_nil_iff c d).mp h with h1 | h1
      · exact hnor.1 h1
      · exact hnor.2 h1
    rcases hsd : splitByte c d with _ | ⟨h0, t⟩
    · exact absurd hsd (splitByte_ne_nil c d)
    rcases t with _ | ⟨t0, ts⟩
    · rw [rlbWriteGo_false_single]
      have hjoin := splitByte_append_of_not_mem c s.curLine d hcur
      rw [hsd] at hjoin
      have hrecs : recsOf c (s.curLine ++ d) = [] := by
        unfold recsOf
        rw [hjoin]
        rfl
      have hlast : lastSeg c (s.curLine ++ d) = s.curLine ++ h0 := by
        unfold lastSeg
        rw [hjoin]
        rfl
      rw [hrecs, hlast, List.append_nil, hdelim]
    · rw [rlbWriteGo_false_cons]
      have hjoin := splitByte_append_of_not_mem c s.curLine d hcur
      rw [hsd] at hjoin
      have hrecs : recsOf c (s.curLine ++ d) = (s.curLine ++ h0) :: (t0 :: ts).dropLast := by
        unfold recsOf
        rw [hjoin]
        rfl
      have hlast : lastSeg c (s.curLine ++ d) = lastSegOf (t0 :: ts) := by
        unfold lastSeg
        rw [hjoin,
          show joinHead s.curLine (h0 :: t0 :: ts) = (s.curLine ++ h0) :: t0 :: ts from rfl,
          lastSegOf_cons_of_ne_nil _ _ (by simp)]
      rw [hrecs, hlast]
      by_cases hp : s.curLine = []
      · rw [if_neg (by simp [hp]), hp,
          lastSegOf_cons_of_ne_nil h0 (t0 :: ts) (by simp)]
        simp [hdelim]
      · rw [if_pos hp]
        simp [hdelim, List.append_assoc]

theorem lastN_length_le {α : Type} (C : ℕ) (l : List α) : (lastN C l).length ≤ C := by
  unfold lastN
  rw [List.length_drop]
  omega

theorem lastN_append_lastN {α : Type} (C : ℕ) (a b : List α) :
    lastN C (lastN C a ++ b) = lastN C (a ++ b) := by
  unfold lastN
  rw [← List.drop_append_of_le_length (by omega), List.drop_drop]
  congr 1
  simp only [List.length_append, List.length_drop]
  omega

theorem trimBuf_buf (s : RState) : (trimBuf s).buf = lastN s.capacity s.buf := by
  unfold trimBuf lastN
  by_cases h : s.capacity < s.buf.length
  · rw [if_pos h]
  · rw [if_neg h, show s.buf.length - s.capacity = 0 by omega, List.drop_zero]

theorem trimBuf_curLine (s : RState) : (trimBuf s).curLine = s.curLine := by
  unfold trimBuf
  split <;> rfl

theorem trimBuf_capacity (s : RState) : (trimBuf s).capacity = s.capacity := by
  unfold trimBuf
  split <;> rfl

theorem trimBuf_delim (s : RState) : (trimBuf s).delim = s.delim := by
  unfold trimBuf
  split <;> rfl

theorem recsOf_append (c : ℕ) (a b : List ℕ) :
    recsOf c (a ++ b) = recsOf c a ++ recsOf c (lastSeg c a ++ b) := by
  unfold recsOf lastSeg
  rw [splitByte_append c a b,
    splitByte_append_of_not_mem c _ b (not_mem_lastSeg c a),
    List.dropLast_append_of_ne_nil _ (joinHead_ne_nil _ _)]

theorem lastSeg_append (c : ℕ) (a b : List ℕ) :
    lastSeg c (a ++ b) = lastSeg c (lastSeg c a ++ b) := by
  unfold lastSeg
  rw [splitByte_append c a b,
    splitByte_append_of_not_mem c _ b (not_mem_lastSeg c a),
    lastSegOf_append _ _ (joinHead_ne_nil _ _)]

theorem c2_aux (C : ℕ) : ∀ (ws : List (List ℕ)) (s : RState) (acc : List ℕ),
    s.curLine = lastSeg 10 acc → s.buf = lastN C (recsOf 10 acc) →
    s.capacity = C → s.delim = [10] →
    (ws.foldl (fun t d => (rlbWrite t d).1) s).curLine = lastSeg 10 (acc ++ ws.flatten) ∧
    (ws.foldl (fun t d => (rlbWrite t d).1) s).buf = lastN C (recsOf 10 (acc ++ ws.flatten)) ∧
    (ws.foldl (fun t d => (rlbWrite t d).1) s).capacity = C ∧
    (ws.foldl (fun t d => (rlbWrite t d).1) s).delim = [10]
  | [], s, acc, h1, h2, h3, h4 => by
    simp only [List.foldl_nil, List.flatten_nil, List.append_nil]
    exact ⟨h1, h2, h3, h4⟩
  | d :: ws', s, acc, h1, h2, h3, h4 => by
    have hcur : (10 : ℕ) ∉ s.curLine := by
      rw [h1]
      exact not_mem_lastSeg 10 acc
    have hlen : s.buf.length ≤ s.capacity := by
      rw [h2, h3]
      exact lastN_length_le C _
    have hw := rlbWrite_single_byte 10 s d h4 hcur hlen
    have hw1 : (rlbWrite s d).1 =
        trimBuf { s with curLine := lastSeg 10 (s.curLine ++ d),
                         buf := s.buf ++ recsOf 10 (s.curLine ++ d) } := by
      rw [hw]
    rw [List.foldl_cons, List.flatten_cons, ← List.append_assoc]
    exact c2_aux C ws' ((rlbWrite s d).1) (acc ++ d)
      (by
        rw [hw1, trimBuf_curLine]
        show lastSeg 10 (s.curLine ++ d) = _
        rw [h1, ← lastSeg_append])
      (by
        rw [hw1, trimBuf_buf]
        show lastN s.capacity (s.buf ++ recsOf 10 (s.curLine ++ d)) = _
        rw [h1, h2, h3, lastN_append_lastN, ← recsOf_append])
      (by rw [hw1, trimBuf_capacity]; exact h3)
      (by rw [hw1, trimBuf_delim]; exact h4)

/-- C2: after any sequence of Writes into a buffer built by
NewRollingLineBuffer with capacity C (newline delimiter), the stored
records are exactly the last C completed newline-terminated records of the
concatenation of everything written, in arrival order, and in particular
the record count never exceeds C. -/
theorem rolling_write_keeps_last_capacity_records (C : ℕ) (ws : List (List ℕ)) :
    (ws.foldl (fun t d => (rlbWrite t d).1) (initRLB C)).buf =
        lastN C (recsOf 10 ws.flatten) ∧
    (ws.foldl (fun t d => (rlbWrite t d).1) (initRLB C)).buf.length ≤ C := by
  have h := c2_aux C ws (initRLB C) [] rfl
    (by simp [initRLB, initR, lastN, recsOf, splitByte]) rfl rfl
  refine ⟨by simpa using h.2.1, ?_⟩
  rw [show (ws.foldl (fun t d => (rlbWrite t d).1) (initRLB C)).buf =
      lastN C (recsOf 10 ws.flatten) from by simpa using h.2.1]
  exact lastN_length_le C _

theorem trimBuf_readpos_le (t : RState) (h : t.readpos ≤ t.buf.length) :
    (trimBuf t).readpos ≤ (trimBuf t).buf.length := by
  unfold trimBuf
  by_cases hc : t.capacity < t.buf.length
  · rw [if_pos hc]
    simp only [List.length_drop]
    omega
  · rw [if_neg hc]
    exact h

theorem collectRecords_count_le (delim : List ℕ) (destLen : ℕ) :
    ∀ (rs : List (List ℕ)) (acc : ℕ), (collectRecords delim destLen rs acc).2 ≤ rs.length
  | [], _ => by simp [collectRecords]
  | r :: rs, acc => by
    unfold collectRecords
    by_cases h : destLen < acc + (r.length + delim.length)
    · rw [if_pos h]
      simp
    · rw [if_neg h]
      show (collectRecords delim destLen rs (acc + (r.length + delim.length))).2 + 1 ≤
        (r :: rs).length
      have := collectRecords_count_le delim destLen rs (acc + (r.length + delim.length))
      simp only [List.length_cons]
      omega

/-- C8 (amended to single-byte delimiters): for every capacity C and every
single-byte delimiter [c], the invariant - record count at most C, read
cursor within [0, count], pending partial free of the delimiter - is
preserved by every Write and every Read. -/
theorem rolling_invariant_single_byte_preserved (C c : ℕ) (s : RState) (d : List ℕ)
    (n : ℕ) (h : RInv C c s) :
    RInv C c (rlbWrite s d).1 ∧ RInv C c (rlbRead s n).1 := by
  obtain ⟨hcap, hdelim, hblen, hrp, hcur⟩ := h
  constructor
  · rw [rlbWrite_single_byte c s d hdelim hcur (by omega)]
    refine ⟨?_, ?_, ?_, ?_, ?_⟩
    · rw [trimBuf_capacity]
      exact hcap
    · rw [trimBuf_delim]
      exact hdelim
    · rw [trimBuf_buf]
      show (lastN s.capacity (s.buf ++ recsOf c (s.curLine ++ d))).length ≤ C
      have := lastN_length_le s.capacity (s.buf ++ recsOf c (s.curLine ++ d))
      omega
    · apply trimBuf_readpos_le
      show s.readpos ≤ (s.buf ++ recsOf c (s.curLine ++ d)).length
      rw [List.length_append]
      omega
    · rw [trimBuf_curLine]
      show c ∉ lastSeg c (s.curLine ++ d)
      exact not_mem_lastSeg c _
  · by_cases hg : s.buf.length = 0 ∨ s.buf.length ≤ s.readpos
    · have : rlbRead s n = (s, [], none) := by
        unfold rlbRead
        rw [if_pos hg]
      rw [this]
      exact ⟨hcap, hdelim, hblen, hrp, hcur⟩
    · by_cases hshort : n < (s.buf.getD s.readpos []).length + s.delim.length
      · have : rlbRead s n = (s, [], some ⟨(s.buf.getD s.readpos []).length + s.delim.length⟩) := by
          unfold rlbRead
          rw [if_neg hg, if_pos hshort]
        rw [this]
        exact ⟨hcap, hdelim, hblen, hrp, hcur⟩
      · rw [rlbRead_success s n hg hshort]
        have hk := collectRecords_count_le s.delim n (s.buf.drop s.readpos) 0
        rw [List.length_drop] at hk
        exact ⟨hcap, hdelim, hblen, by show s.readpos + _ ≤ s.buf.length; omega, hcur⟩

theorem rolling_invariant_single_byte_preserved_witness :
    RInv 2 10 (rlbWrite (initRLB 2) [97, 10]).1 ∧ RInv 2 10 (rlbRead (initRLB 2) 5).1 :=
  rolling_invariant_single_byte_preserved 2 10 (initRLB 2) [97, 10] 5
    ⟨rfl, rfl, by decide, by decide, by decide⟩

/-! ### Lemmas about the coverage set and the positional write stream -/

theorem nextCapGo_ge : ∀ (f : ℕ) (i : ℤ) (rs : RangeSet), i ≤ nextCapGo f i rs
  | 0, i, rs => le_refl i
  | f + 1, i, rs => by
    unfold nextCapGo
    by_cases h : i ∈ rs
    · rw [if_pos h]
      have := nextCapGo_ge f (i + 1) rs
      omega
    · rw [if_neg h]

theorem nextCapGo_mem : ∀ (f : ℕ) (i : ℤ) (rs : RangeSet) (k : ℤ),
    i ≤ k → k < nextCapGo f i rs → k ∈ rs
  | 0, i, rs, k, hik, hlt => absurd hlt (by simp [nextCapGo]; omega)
  | f + 1, i, rs, k, hik, hlt => by
    unfold nextCapGo at hlt
    by_cases h : i ∈ rs
    · rw [if_pos h] at hlt
      by_cases hk : k = i
      · exact hk ▸ h
      · exact nextCapGo_mem f (i + 1) rs k (by omega) hlt
    · rw [if_neg h] at hlt
      omega

theorem nextCap_nonneg (rs : RangeSet) : 0 ≤ nextCap rs :=
  nextCapGo_ge _ 0 rs

theorem nextCap_le_of_bound (rs : RangeSet) (L : ℕ) (h : ∀ k ∈ rs, k < (L : ℤ)) :
    nextCap rs ≤ (L : ℤ) := by
  by_contra hlt
  push_neg at hlt
  have hmem := nextCapGo_mem (rs.length + 1) 0 rs (L : ℤ) (by positivity) hlt
  exact absurd (h _ hmem) (by omega)

theorem addRangeGo_mem : ∀ (n : ℕ) (rs : RangeSet) (a k : ℤ),
    k ∈ addRangeGo rs a n ↔ (k ∈ rs ∨ (a ≤ k ∧ k < a + n))
  | 0, rs, a, k => by
    unfold addRangeGo
    constructor
    · exact Or.inl
    · rintro (h | ⟨h1, h2⟩)
      · exact h
      · exfalso
        simp at h2
        omega
  | n + 1, rs, a, k => by
    show k ∈ addRangeGo (if a ∈ rs then rs else rs ++ [a]) (a + 1) n ↔ _
    by_cases hm : a ∈ rs
    · rw [if_pos hm, addRangeGo_mem n rs (a + 1) k]
      constructor
      · rintro (h | ⟨h1, h2⟩)
        · exact Or.inl h
        · refine Or.inr ⟨by omega, ?_⟩
          push_cast at h2 ⊢
          omega
      · rintro (h | ⟨h1, h2⟩)
        · exact Or.inl h
        · by_cases hk : k = a
          · exact Or.inl (hk ▸ hm)
          · refine Or.inr ⟨by omega, ?_⟩
            push_cast at h2 ⊢
            omega
    · rw [if_neg hm, addRangeGo_mem n (rs ++ [a]) (a + 1) k]
      rw [List.mem_append, List.mem_singleton]
      constructor
      · rintro ((h | h) | ⟨h1, h2⟩)
        · exact Or.inl h
        · refine Or.inr ⟨by omega, ?_⟩
          push_cast
          omega
        · refine Or.inr ⟨by omega, ?_⟩
          push_cast at h2 ⊢
          omega
      · rintro (h | ⟨h1, h2⟩)
        · exact Or.inl (Or.inl h)
        · by_cases hk : k = a
          · exact Or.inl (Or.inr hk)
          · refine Or.inr ⟨by omega, ?_⟩
            push_cast at h2 ⊢
            omega

theorem addRange_mem (rs : RangeSet) (a b k : ℤ) :
    k ∈ addRange rs a b ↔ (k ∈ rs ∨ (a ≤ k ∧ k < a + ((b - a).toNat : ℤ))) :=
  addRangeGo_mem _ rs a k

theorem writeBytes_length (buf : List ℕ) (i : ℕ) (p : List ℕ)
    (h : i + p.length ≤ buf.length) :
    (writeBytes buf i p).length = buf.length := by
  unfold writeBytes
  simp only [List.length_append, List.length_take, List.length_drop]
  omega

theorem readable_bounds (s : WState) (d : ℕ) (hInv : WInv s) :
    0 ≤ (if (d : ℤ) ≤ nextCap s.bytesAvail then (d : ℤ) else nextCap s.bytesAvail) ∧
    (if (d : ℤ) ≤ nextCap s.bytesAvail then (d : ℤ) else nextCap s.bytesAvail) ≤
      (s.buf.length : ℤ) := by
  have h0 := nextCap_nonneg s.bytesAvail
  have hle := nextCap_le_of_bound s.bytesAvail s.buf.length hInv
  by_cases hd : (d : ℤ) ≤ nextCap s.bytesAvail
  · rw [if_pos hd]
    exact ⟨by positivity, by omega⟩
  · rw [if_neg hd]
    exact ⟨h0, hle⟩

theorem wStep_bytesRead (s : WState) (op : WOp) (s' : WState) (o : WOut)
    (h : wStep s op = some (s', o)) :
    s'.bytesRead = s.bytesRead + (o.bytes.length : ℤ) := by
  cases op with
  | writeAt p off =>
    simp only [wStep, wWriteAt] at h
    by_cases hc : s.readClosed = true
    · rw [if_pos hc] at h
      simp only [Option.some.injEq, Prod.mk.injEq] at h
      obtain ⟨rfl, rfl⟩ := h
      simp
    · rw [if_neg hc] at h
      by_cases ha : off - s.bytesRead < 0
      · rw [if_pos ha] at h
        cases h
      · rw [if_neg ha] at h
        simp only [Option.some.injEq, Prod.mk.injEq] at h
        obtain ⟨rfl, rfl⟩ := h
        simp
  | read d =>
    simp only [wStep, wRead] at h
    by_cases hc : s.readClosed = true
    · rw [if_pos hc] at h
      simp only [Option.some.injEq, Prod.mk.injEq] at h
      obtain ⟨rfl, rfl⟩ := h
      simp
    · rw [if_neg hc] at h
      by_cases hg : 0 ≤ (if (d : ℤ) ≤ nextCap s.bytesAvail then (d : ℤ) else nextCap s.bytesAvail) ∧
          (if (d : ℤ) ≤ nextCap s.bytesAvail then (d : ℤ) else nextCap s.bytesAvail) ≤
            (s.buf.length : ℤ)
      · rw [if_pos hg] at h
        simp only [Option.some.injEq, Prod.mk.injEq] at h
        obtain ⟨rfl, rfl⟩ := h
        simp only [List.length_take]
        have h1 := hg.1
        have h2 := hg.2
        omega
      · rw [if_neg hg] at h
        cases h
  | close =>
    simp only [wStep, wClose] at h
    simp only [Option.some.injEq, Prod.mk.injEq] at h
    obtain ⟨rfl, rfl⟩ := h
    simp

theorem wStep_bytesRead_le (s : WState) (op : WOp) (s' : WState) (o : WOut)
    (h : wStep s op = some (s', o)) : s.bytesRead ≤ s'.bytesRead := by
  rw [wStep_bytesRead s op s' o h]
  omega

theorem wRun_bytesRead_le : ∀ (t : List WOp) (s s' : WState),
    wRun s t = some s' → s.bytesRead ≤ s'.bytesRead
  | [], s, s', h => by
    obtain rfl := Option.some.inj h
    exact le_refl _
  | op :: t, s, s', h => by
    unfold wRun at h
    rcases hst : wStep s op with _ | ⟨s1, o⟩
    · rw [hst] at h
      cases h
    · rw [hst] at h
      exact le_trans (wStep_bytesRead_le s op s1 o hst) (wRun_bytesRead_le t s1 s' h)

theorem wRun_append : ∀ (A B : List WOp) (s : WState),
    wRun s (A ++ B) = (wRun s A).bind (fun s1 => wRun s1 B)
  | [], B, s => rfl
  | op :: A, B, s => by
    show (match wStep s op with
          | none => none
          | some (s1, _) => wRun s1 (A ++ B)) = _
    rcases hst : wStep s op with _ | ⟨s1, o⟩
    · rw [show wRun s (op :: A) = none from by
        show (match wStep s op with
              | none => none
              | some (s1, _) => wRun s1 A) = none
        rw [hst]]
      rfl
    · show wRun s1 (A ++ B) = ((wRun s (op :: A)).bind fun s2 => wRun s2 B)
      rw [show wRun s (op :: A) = wRun s1 A from by
        show (match wStep s op with
              | none => none
              | some (s1, _) => wRun s1 A) = _
        rw [hst]]
      exact wRun_append A B s1

theorem wRun_take_succ (t : List WOp) (i : ℕ) (hi : i < t.length)
    (s0 si si' : WState) (o : WOut)
    (h1 : wRun s0 (t.take i) = some si)
    (h2 : wStep si (t.get ⟨i, hi⟩) = some (si', o)) :
    wRun s0 (t.take (i + 1)) = some si' := by
  rw [List.take_succ, List.getElem?_eq_getElem hi, wRun_append, h1]
  show wRun si [t[i]] = some si'
  rw [List.get_eq_getElem] at h2
  show (match wStep si t[i] with
        | none => none
        | some (s1, _) => wRun s1 []) = some si'
  rw [h2]
  rfl

/-- C6: along any run of the positional write stream, the logical byte
positions delivered by the Read at step i (the interval starting at that
state's consumption origin, of the length of the bytes returned) are
disjoint from those delivered by any later step j - a byte position
delivered once is never delivered again, regardless of the WriteAt calls
in between. -/
theorem read_positions_never_redelivered (n0 : ℕ) (t : List WOp) (i j : ℕ)
    (hj : j < t.length) (hij : i < j) (si sj si' sj' : WState) (oi oj : WOut)
    (h1 : wRun (initW n0) (t.take i) = some si)
    (h2 : wStep si (t.get ⟨i, lt_trans hij hj⟩) = some (si', oi))
    (h3 : wRun (initW n0) (t.take j) = some sj)
    (h4 : wStep sj (t.get ⟨j, hj⟩) = some (sj', oj)) :
    Finset.Ico si.bytesRead (si.bytesRead + (oi.bytes.length : ℤ)) ∩
      Finset.Ico sj.bytesRead (sj.bytesRead + (oj.bytes.length : ℤ)) = ∅ := by
  have hsucc := wRun_take_succ t i (lt_trans hij hj) (initW n0) si si' oi h1 h2
  have hsplit : t.take j = t.take (i + 1) ++ ((t.drop (i + 1)).take (j - (i + 1))) := by
    conv_lhs => rw [show j = (i + 1) + (j - (i + 1)) by omega]
    rw [List.take_add]
  rw [hsplit, wRun_append, hsucc] at h3
  have h5 : wRun si' ((t.drop (i + 1)).take (j - (i + 1))) = some sj := h3
  have hmono := wRun_bytesRead_le _ si' sj h5
  have heq := wStep_bytesRead si _ si' oi h2
  have hend : si.bytesRead + (oi.bytes.length : ℤ) ≤ sj.bytesRead := by
    rw [← heq]
    exact hmono
  rw [Finset.Ico_inter_Ico]
  apply Finset.Ico_eq_empty
  refine not_lt.mpr ?_
  calc (si.bytesRead + (oi.bytes.length : ℤ)) ⊓ (sj.bytesRead + (oj.bytes.length : ℤ))
      ≤ si.bytesRead + (oi.bytes.length : ℤ) := inf_le_left
    _ ≤ sj.bytesRead := hend
    _ ≤ si.bytesRead ⊔ sj.bytesRead := le_sup_right

theorem read_positions_never_redelivered_witness :
    Finset.Ico (0 : ℤ) (0 + ((([7] : List ℕ)).length : ℤ)) ∩
      Finset.Ico (1 : ℤ) (1 + ((([8] : List ℕ)).length : ℤ)) = ∅ :=
  read_positions_never_redelivered 0 [WOp.writeAt [7, 8] 0, WOp.read 1, WOp.read 1] 1 2
    (by decide) (by decide)
    ⟨[7, 8], [0, 1], 0, false⟩ ⟨[8], [0], 1, false⟩
    ⟨[8], [0], 1, false⟩ ⟨[], [], 2, false⟩
    ⟨[7], 1, none⟩ ⟨[8], 1, none⟩
    (by decide) (by decide) (by decide) (by decide)

theorem wStep_ne_none (s : WState) (op : WOp) (hInv : WInv s) (hpre : preOp s op) :
    wStep s op ≠ none := by
  cases op with
  | writeAt p off =>
    have hoff : s.bytesRead ≤ off := hpre
    simp only [wStep, wWriteAt]
    by_cases hc : s.readClosed = true
    · rw [if_pos hc]
      simp
    · rw [if_neg hc, if_neg (by omega : ¬off - s.bytesRead < 0)]
      simp
  | read d =>
    simp only [wStep, wRead]
    by_cases hc : s.readClosed = true
    · rw [if_pos hc]
      simp
    · rw [if_neg hc, if_pos (readable_bounds s d hInv)]
      simp
  | close =>
    simp [wStep]

theorem wStep_inv (s : WState) (op : WOp) (s' : WState) (o : WOut) (hInv : WInv s)
    (h : wStep s op = some (s', o)) : WInv s' := by
  cases op with
  | writeAt p off =>
    simp only [wStep, wWriteAt] at h
    by_cases hc : s.readClosed = true
    · rw [if_pos hc] at h
      simp only [Option.some.injEq, Prod.mk.injEq] at h
      obtain ⟨rfl, rfl⟩ := h
      exact hInv
    · rw [if_neg hc] at h
      by_cases ha : off - s.bytesRead < 0
      · rw [if_pos ha] at h
        cases h
      · rw [if_neg ha] at h
        simp only [Option.some.injEq, Prod.mk.injEq] at h
        obtain ⟨rfl, rfl⟩ := h
        intro k hk
        show k < ((writeBytes _ (off - s.bytesRead).toNat p).length : ℤ)
        have hblen : (writeBytes
            (if s.buf.length < (off - s.bytesRead).toNat + p.length then
              s.buf ++ List.replicate ((off - s.bytesRead).toNat + p.length - s.buf.length) 0
            else s.buf) (off - s.bytesRead).toNat p).length =
            max s.buf.length ((off - s.bytesRead).toNat + p.length) := by
          by_cases hgrow : s.buf.length < (off - s.bytesRead).toNat + p.length
          · rw [if_pos hgrow, writeBytes_length _ _ _ (by simp [List.length_replicate]; omega)]
            simp [List.length_replicate]
            omega
          · rw [if_neg hgrow, writeBytes_length _ _ _ (by omega)]
            omega
        rw [hblen]
        rcases (addRange_mem s.bytesAvail (off - s.bytesRead)
            (off - s.bytesRead + (p.length : ℤ)) k).mp hk with hold | ⟨hk1, hk2⟩
        · have := hInv k hold
          push_cast
          omega
        · push_cast at hk2 ⊢
          omega
  | read d =>
    simp only [wStep, wRead] at h
    by_cases hc : s.readClosed = true
    · rw [if_pos hc] at h
      simp only [Option.some.injEq, Prod.mk.injEq] at h
      obtain ⟨rfl, rfl⟩ := h
      exact hInv
    · rw [if_neg hc] at h
      by_cases hg : 0 ≤ (if (d : ℤ) ≤ nextCap s.bytesAvail then (d : ℤ) else nextCap s.bytesAvail) ∧
          (if (d : ℤ) ≤ nextCap s.bytesAvail then (d : ℤ) else nextCap s.bytesAvail) ≤
            (s.buf.length : ℤ)
      · rw [if_pos hg] at h
        simp only [Option.some.injEq, Prod.mk.injEq] at h
        obtain ⟨rfl, rfl⟩ := h
        intro k hk
        simp only [consume, List.mem_map, List.mem_filter] at hk
        obtain ⟨k0, ⟨hk0mem, hk0ge⟩, rfl⟩ := hk
        have := hInv k0 hk0mem
        simp only [List.length_drop]
        have h1 := hg.1
        have h2 := hg.2
        simp only [decide_eq_true_eq] at hk0ge
        push_cast
        omega
      · rw [if_neg hg] at h
        cases h
  | close =>
    simp only [wStep, wClose] at h
    simp only [Option.some.injEq, Prod.mk.injEq] at h
    obtain ⟨rfl, rfl⟩ := h
    exact hInv

theorem wRun_safe_aux : ∀ (t : List WOp) (s : WState), WInv s →
    (∀ (i : ℕ) (hi : i < t.length) (s1 : WState),
      wRun s (t.take i) = some s1 → preOp s1 (t.get ⟨i, hi⟩)) →
    ∃ s', wRun s t = some s'
  | [], s, _, _ => ⟨s, rfl⟩
  | op :: t, s, hInv, hpre => by
    have hp0 : preOp s op := hpre 0 (by simp) s rfl
    rcases hst : wStep s op with _ | ⟨s1, o⟩
    · exact absurd hst (wStep_ne_none s op hInv hp0)
    · have hInv1 := wStep_inv s op s1 o hInv hst
      have hpre1 : ∀ (i : ℕ) (hi : i < t.length) (s2 : WState),
          wRun s1 (t.take i) = some s2 → preOp s2 (t.get ⟨i, hi⟩) := by
        intro i hi s2 hr
        have hstep : wRun s ((op :: t).take (i + 1)) = some s2 := by
          show (match wStep s op with
                | none => none
                | some (s1, _) => wRun s1 (t.take i)) = some s2
          rw [hst]
          exact hr
        exact hpre (i + 1) (by simpa using Nat.succ_lt_succ hi) s2 hstep
      rcases wRun_safe_aux t s1 hInv1 hpre1 with ⟨s', hs'⟩
      refine ⟨s', ?_⟩
      show (match wStep s op with
            | none => none
            | some (s1, _) => wRun s1 t) = some s'
      rw [hst]
      exact hs'

/-- C9: starting from a fresh stream, any trace of operations that
respects the documented precondition (each WriteAt offset is at least the
bytes already consumed at that point) runs to completion: no step reaches
the panic branch of the embedding (all buffer indexing and slicing in
WriteAt, growth and Read stays in bounds). -/
theorem no_panic_under_preconditions (n0 : ℕ) (t : List WOp)
    (hpre : ∀ (i : ℕ) (hi : i < t.length) (s1 : WState),
      wRun (initW n0) (t.take i) = some s1 → preOp s1 (t.get ⟨i, hi⟩)) :
    ∃ s', wRun (initW n0) t = some s' :=
  wRun_safe_aux t (initW n0) (fun k hk => absurd hk (List.not_mem_nil k)) hpre

theorem no_panic_under_preconditions_witness :
    ∃ s', wRun (initW 0) [WOp.read 5, WOp.close, WOp.read 5] = some s' :=
  no_panic_under_preconditions 0 [WOp.read 5, WOp.close, WOp.read 5]
    (by
      intro i hi s1 hr
      simp only [List.length_cons, List.length_nil] at hi
      rcases i with _ | _ | _ | i
      · exact trivial
      · exact trivial
      · exact trivial
      · omega)

theorem empty_read_noop_lossy_cleared_only_on_progress_witness :
    rlbRead ⟨[], [], 2, 0, true, [10]⟩ 5 = (⟨[], [], 2, 0, true, [10]⟩, [], none) ∧
    (0 : ℕ) < (rlbRead ⟨[], [[97]], 1, 0, true, [10]⟩ 5).1.readpos :=
  ⟨(empty_read_noop_lossy_cleared_only_on_progress ⟨[], [], 2, 0, true, [10]⟩ 5).1
      (Or.inl rfl),
   (empty_read_noop_lossy_cleared_only_on_progress ⟨[], [[97]], 1, 0, true, [10]⟩ 5).2
      rfl (by decide)⟩
